import Mathlib

/-!
Shallow embedding of the `qtree` repository (src/src/lib.rs): a generic
two-dimensional quadtree index `QuadTree<T>` over an inner recursive node
type `QuadTreeInner`, together with the facade operations `insert`,
`remove`, `reinsert`, `search_radius` and the inner operations
`in_boundary`, `split`, `insert`, `remove`, `contains_circle`,
`search_radius`.

Modelling choices:
  * `f32` coordinates are modelled as exact rationals `ℚ`; the only
    arithmetic the source performs is `+`, `-`, `* `, `/ 2.0`, `abs`,
    `powi 2` and comparisons, all of which are exact here.
  * `u64` handles are modelled as `Nat` (the counter only grows by one per
    insert, so overflow is immaterial to the claims).
  * Rust `HashMap<u64, T>` is modelled as an association list with
    `mapGet` / `mapInsert` (insert-or-replace) / `mapRemove`.
  * `Vec::partition_point(|&x| x < handle)` followed by `Vec::insert` on the
    (sorted) leaf list is modelled by `insertSorted`, which inserts in front
    of the first element that is `≥ handle` — the same insertion point the
    binary search finds on a sorted (partitioned) list.
  * `Vec::binary_search(&handle)` on the sorted leaf list succeeds exactly
    when the handle is present; removal of the found index is modelled by
    `List.erase` (on a sorted list all occurrences of a value are adjacent,
    so erasing the first occurrence agrees with removing any found index).
  * `Result<_, QuadTreeInsertError>` is `Except Unit _`; `&mut self` methods
    return the updated value.  An `Err` return of the inner insert/remove
    happens before any mutation at every recursion level in the source, so
    returning no tree on `.error` is faithful.
  * the `.unwrap()` calls on map lookups in the facade are modelled by the
    `InsertOut.panic` outcome (or by `none` for `search_radius`).
  * the facade's worklist loop (`while let Some(id) = splits.pop()`) is
    modelled with explicit fuel; `InsertOut.fuelOut` is an artifact of the
    embedding, and the development proves it is never reached.
-/

attribute [local semireducible] Rat.add Rat.sub Rat.mul Rat.inv

/-- The inner recursive quadtree node of the source, `struct QuadTreeInner`:
`nodes` is the handle list, `quads` is `None` for a leaf (constructor
`.leaf`) and `Some([q0, q1, q2, q3])` for an internal node (constructor
`.internal`, children in the array order of the source's `split`). -/
inductive QuadTreeInner : Type where
  | leaf (nodes : List Nat) (max_nodes : Nat) (min_size : ℚ)
      (top_left bot_right : ℚ × ℚ)
  | internal (nodes : List Nat) (max_nodes : Nat) (min_size : ℚ)
      (top_left bot_right : ℚ × ℚ)
      (q0 q1 q2 q3 : QuadTreeInner)
deriving DecidableEq

namespace QuadTreeInner

/-- Field accessor for `nodes`. -/
def nodes : QuadTreeInner → List Nat
  | .leaf ns _ _ _ _ => ns
  | .internal ns _ _ _ _ _ _ _ _ => ns

/-- Field accessor for `max_nodes`. -/
def max_nodes : QuadTreeInner → Nat
  | .leaf _ mx _ _ _ => mx
  | .internal _ mx _ _ _ _ _ _ _ => mx

/-- Field accessor for `min_size`. -/
def min_size : QuadTreeInner → ℚ
  | .leaf _ _ ms _ _ => ms
  | .internal _ _ ms _ _ _ _ _ _ => ms

/-- Field accessor for `top_left`. -/
def top_left : QuadTreeInner → ℚ × ℚ
  | .leaf _ _ _ tl _ => tl
  | .internal _ _ _ tl _ _ _ _ _ => tl

/-- Field accessor for `bot_right`. -/
def bot_right : QuadTreeInner → ℚ × ℚ
  | .leaf _ _ _ _ br => br
  | .internal _ _ _ _ br _ _ _ _ => br

/-- The child at index `i` of the source's `quads` array (`none` for a leaf
or an index other than 0..3). -/
def quadAt : QuadTreeInner → Nat → Option QuadTreeInner
  | .internal _ _ _ _ _ a _ _ _, 0 => some a
  | .internal _ _ _ _ _ _ b _ _, 1 => some b
  | .internal _ _ _ _ _ _ _ c _, 2 => some c
  | .internal _ _ _ _ _ _ _ _ d, 3 => some d
  | _, _ => none

/-- Whether the node is internal (`quads.is_some()` in the source). -/
def isInternal : QuadTreeInner → Bool
  | .leaf _ _ _ _ _ => false
  | .internal _ _ _ _ _ _ _ _ _ => true

/-- `QuadTreeInner::new`: an empty leaf with the given configuration. -/
def new (max_nodes : Nat) (min_size : ℚ) (top_left bot_right : ℚ × ℚ) :
    QuadTreeInner :=
  .leaf [] max_nodes min_size top_left bot_right

/-- `QuadTreeInner::in_boundary`: componentwise containment of `pos`
between `top_left` and `bot_right` (both ends inclusive). -/
def in_boundary (t : QuadTreeInner) (pos : ℚ × ℚ) : Bool :=
  decide (pos.1 ≥ t.top_left.1) && decide (pos.1 ≤ t.bot_right.1) &&
    decide (pos.2 ≥ t.top_left.2) && decide (pos.2 ≤ t.bot_right.2)

end QuadTreeInner

/-- Insertion of `handle` in front of the first element `≥ handle` of `l`:
the list insertion at the index `partition_point(|&x| x < handle)` of the
source (`// Forces nodes to always be sorted`). -/
def insertSorted (l : List Nat) (handle : Nat) : List Nat :=
  match l with
  | [] => [handle]
  | x :: xs => if x < handle then x :: insertSorted xs handle else handle :: x :: xs

namespace QuadTreeInner

/-- `QuadTreeInner::split`: builds the four child quadrants exactly as the
source constructs them (`top_left_quad`, `top_right_quad`, `bot_left_quad`,
`bot_right_quad`, stored in the `quads` array in that order), converts the
node to internal, and returns the drained former handle list.  Note the
source's `top_right_quad` really is built with `bot_right.0` equal to the
parent's midpoint x, i.e. with zero width; the embedding copies this
verbatim. -/
def split (t : QuadTreeInner) : QuadTreeInner × List Nat :=
  let top_left_quad := QuadTreeInner.new t.max_nodes t.min_size
    t.top_left
    ((t.top_left.1 + t.bot_right.1) / 2, (t.top_left.2 + t.bot_right.2) / 2)
  let top_right_quad := QuadTreeInner.new t.max_nodes t.min_size
    ((t.top_left.1 + t.bot_right.1) / 2, t.top_left.2)
    ((t.top_left.1 + t.bot_right.1) / 2, (t.top_left.2 + t.bot_right.2) / 2)
  let bot_left_quad := QuadTreeInner.new t.max_nodes t.min_size
    (t.top_left.1, (t.top_left.2 + t.bot_right.2) / 2)
    ((t.top_left.1 + t.bot_right.1) / 2, t.bot_right.2)
  let bot_right_quad := QuadTreeInner.new t.max_nodes t.min_size
    ((t.top_left.1 + t.bot_right.1) / 2, (t.top_left.2 + t.bot_right.2) / 2)
    t.bot_right
  (QuadTreeInner.internal [] t.max_nodes t.min_size t.top_left t.bot_right
    top_left_quad top_right_quad bot_left_quad bot_right_quad,
   t.nodes)

/-- `QuadTreeInner::insert`: boundary check, then — leaf: either a sorted
insertion (when under capacity or the region is at most `min_size` in either
extent) or a `split` whose drained handles are returned for reinsertion;
internal: route to one child by comparing against the region midpoint
(`midX ≥ x` selects `quads[0]`/`quads[1]`, the `y` comparison picks between
them) and recurse.  As in the source, the pending-split list returned by a
child is discarded and an internal node returns `Ok(vec![])`. -/
def insert : QuadTreeInner → (ℚ × ℚ) → Nat →
    Except Unit (QuadTreeInner × List Nat)
  | .leaf ns mx ms tl br, pos, handle =>
    if !(QuadTreeInner.leaf ns mx ms tl br).in_boundary pos then .error ()
    else if ns.length < mx ∨ |tl.1 - br.1| ≤ ms ∨ |tl.2 - br.2| ≤ ms then
      .ok (.leaf (insertSorted ns handle) mx ms tl br, [])
    else
      .ok (QuadTreeInner.leaf ns mx ms tl br).split
  | .internal ns mx ms tl br q0 q1 q2 q3, pos, handle =>
    if !(QuadTreeInner.internal ns mx ms tl br q0 q1 q2 q3).in_boundary pos then
      .error ()
    else if (tl.1 + br.1) / 2 ≥ pos.1 then
      if (tl.2 + br.2) / 2 ≥ pos.2 then
        match q0.insert pos handle with
        | .error e => .error e
        | .ok (q0', _) => .ok (.internal ns mx ms tl br q0' q1 q2 q3, [])
      else
        match q1.insert pos handle with
        | .error e => .error e
        | .ok (q1', _) => .ok (.internal ns mx ms tl br q0 q1' q2 q3, [])
    else if (tl.2 + br.2) / 2 ≥ pos.2 then
      match q2.insert pos handle with
      | .error e => .error e
      | .ok (q2', _) => .ok (.internal ns mx ms tl br q0 q1 q2' q3, [])
    else
      match q3.insert pos handle with
      | .error e => .error e
      | .ok (q3', _) => .ok (.internal ns mx ms tl br q0 q1 q2 q3', [])

/-- `QuadTreeInner::remove`: soft-fails (`none`) outside the boundary; on a
leaf, binary-searches the sorted handle list and removes on an exact match;
on an internal node, routes by the same midpoint rule as `insert`. -/
def remove : QuadTreeInner → Nat → (ℚ × ℚ) → Option Nat × QuadTreeInner
  | .leaf ns mx ms tl br, handle, pos =>
    if !(QuadTreeInner.leaf ns mx ms tl br).in_boundary pos then
      (none, .leaf ns mx ms tl br)
    else if handle ∈ ns then (some handle, .leaf (ns.erase handle) mx ms tl br)
    else (none, .leaf ns mx ms tl br)
  | .internal ns mx ms tl br q0 q1 q2 q3, handle, pos =>
    if !(QuadTreeInner.internal ns mx ms tl br q0 q1 q2 q3).in_boundary pos then
      (none, .internal ns mx ms tl br q0 q1 q2 q3)
    else if (tl.1 + br.1) / 2 ≥ pos.1 then
      if (tl.2 + br.2) / 2 ≥ pos.2 then
        let r := q0.remove handle pos
        (r.1, .internal ns mx ms tl br r.2 q1 q2 q3)
      else
        let r := q1.remove handle pos
        (r.1, .internal ns mx ms tl br q0 r.2 q2 q3)
    else if (tl.2 + br.2) / 2 ≥ pos.2 then
      let r := q2.remove handle pos
      (r.1, .internal ns mx ms tl br q0 q1 r.2 q3)
    else
      let r := q3.remove handle pos
      (r.1, .internal ns mx ms tl br q0 q1 q2 r.2)

/-- `QuadTreeInner::contains_circle`: clamp the query point componentwise
into the rectangle and compare the squared distance to the clamped point
against `r²`. -/
def contains_circle (t : QuadTreeInner) (pos : ℚ × ℚ) (r : ℚ) : Bool :=
  let tx := if pos.1 < t.top_left.1 then t.top_left.1
    else if pos.1 > t.bot_right.1 then t.bot_right.1 else pos.1
  let ty := if pos.2 < t.top_left.2 then t.top_left.2
    else if pos.2 > t.bot_right.2 then t.bot_right.2 else pos.2
  decide (|tx - pos.1| ^ 2 + |ty - pos.2| ^ 2 ≤ r ^ 2)

/-- `QuadTreeInner::search_radius`: a leaf returns its whole handle list; an
internal node concatenates the results of the children whose region passes
`contains_circle`, in `quads` array order. -/
def search_radius (t : QuadTreeInner) (pos : ℚ × ℚ) (r : ℚ) : List Nat :=
  match t with
  | .leaf ns _ _ _ _ => ns
  | .internal _ _ _ _ _ q0 q1 q2 q3 =>
    (if q0.contains_circle pos r then q0.search_radius pos r else []) ++
    (if q1.contains_circle pos r then q1.search_radius pos r else []) ++
    (if q2.contains_circle pos r then q2.search_radius pos r else []) ++
    (if q3.contains_circle pos r then q3.search_radius pos r else [])

end QuadTreeInner

/-- The `position()` capability of the source's `Position` trait. -/
class Position (T : Type) where
  position : T → ℚ × ℚ

/-- Lookup in the association-list model of `HashMap<u64, T>`
(`HashMap::get`). -/
def mapGet {T : Type} (m : List (Nat × T)) (k : Nat) : Option T :=
  match m with
  | [] => none
  | (k', v) :: rest => if k' = k then some v else mapGet rest k

/-- Insert-or-replace in the association-list model of `HashMap<u64, T>`
(`HashMap::insert`). -/
def mapInsert {T : Type} (m : List (Nat × T)) (k : Nat) (v : T) :
    List (Nat × T) :=
  match m with
  | [] => [(k, v)]
  | (k', v') :: rest =>
    if k' = k then (k, v) :: rest else (k', v') :: mapInsert rest k v

/-- Removal from the association-list model of `HashMap<u64, T>`, returning
the removed value if any (`HashMap::remove`). -/
def mapRemove {T : Type} (m : List (Nat × T)) (k : Nat) :
    Option T × List (Nat × T) :=
  match m with
  | [] => (none, [])
  | (k', v) :: rest =>
    if k' = k then (some v, rest)
    else
      let r := mapRemove rest k
      (r.1, (k', v) :: r.2)

/-- The facade `struct QuadTree<T>`: the handle→item map, the monotone
handle counter and the inner tree. -/
structure QuadTree (T : Type) where
  nodes : List (Nat × T)
  handle_counter : Nat
  tree : QuadTreeInner
deriving DecidableEq

/-- Outcome of a facade insertion (`QuadTree::insert` / `reinsert`):
`ok` and `err` (`Err(QuadTreeInsertError)`) carry the resulting state,
`panic` models an `unwrap` of a missing map key, and `fuelOut` is the
embedding's fuel artifact (proved unreachable). -/
inductive InsertOut (T : Type) where
  | ok (qt : QuadTree T)
  | err (qt : QuadTree T)
  | panic
  | fuelOut
deriving DecidableEq

namespace InsertOut

/-- The carried state of an `ok` or `err` outcome. -/
def anyState {T : Type} : InsertOut T → Option (QuadTree T)
  | .ok qt => some qt
  | .err qt => some qt
  | .panic => none
  | .fuelOut => none

/-- Whether the outcome is `err`. -/
def isErr {T : Type} : InsertOut T → Bool
  | .err _ => true
  | _ => false

/-- Whether the outcome is the embedding's `fuelOut` artifact. -/
def isFuelOut {T : Type} : InsertOut T → Bool
  | .fuelOut => true
  | _ => false

end InsertOut

/-- The worklist loop shared by `QuadTree::insert` and `QuadTree::reinsert`:
`while let Some(id) = splits.pop()` pops from the back of the vector,
re-inserts the handle at its item's current position, and appends any newly
returned pending handles at the back.  `fuel` bounds the number of
iterations; the development proves the fuel used by the facade suffices. -/
def insertLoop {T : Type} [Position T] (qt : QuadTree T) (splits : List Nat) :
    Nat → InsertOut T
  | 0 => .fuelOut
  | fuel + 1 =>
    match splits.getLast? with
    | none => .ok qt
    | some id =>
      match mapGet qt.nodes id with
      | none => .panic
      | some item =>
        match qt.tree.insert (Position.position item) id with
        | .error _ => .err qt
        | .ok (tree', new_splits) =>
          insertLoop (QuadTree.mk qt.nodes qt.handle_counter tree')
            (splits.dropLast ++ new_splits) fuel

namespace QuadTree

/-- `QuadTree::new`: empty map, counter 0, fresh inner leaf. -/
def new {T : Type} (max_nodes : Nat) (min_size : ℚ)
    (top_left bot_right : ℚ × ℚ) : QuadTree T :=
  ⟨[], 0, QuadTreeInner.new max_nodes min_size top_left bot_right⟩

/-- `QuadTree::insert`: route the fresh handle (the current counter value)
into the tree — on error, return `Err` with nothing changed — then record
the item, bump the counter, and drive the worklist loop. -/
def insert {T : Type} [Position T] (qt : QuadTree T) (item : T)
    (pos : ℚ × ℚ) : InsertOut T :=
  match qt.tree.insert pos qt.handle_counter with
  | .error _ => .err qt
  | .ok (tree', splits) =>
    insertLoop
      (QuadTree.mk (mapInsert qt.nodes qt.handle_counter item)
        (qt.handle_counter + 1) tree')
      splits (splits.length + 1)

/-- `QuadTree::remove`: remove the handle from the tree at `pos` (the
returned `Option` of the inner removal is discarded, exactly as in the
source), then remove and return the map entry. -/
def remove {T : Type} (qt : QuadTree T) (id : Nat) (pos : ℚ × ℚ) :
    Option T × QuadTree T :=
  let tr := qt.tree.remove id pos
  let mr := mapRemove qt.nodes id
  (mr.1, QuadTree.mk mr.2 qt.handle_counter tr.2)

/-- `QuadTree::reinsert`: remove the handle from the leaf indicated by
`old_pos`, then re-run the worklist insertion at the item's current
position; the map lookup is `unwrap`ped (`panic` when the handle has no map
entry). -/
def reinsert {T : Type} [Position T] (qt : QuadTree T) (id : Nat)
    (old_pos : ℚ × ℚ) : InsertOut T :=
  let tr := qt.tree.remove id old_pos
  let qt₀ := QuadTree.mk qt.nodes qt.handle_counter tr.2
  match mapGet qt₀.nodes id with
  | none => .panic
  | some item =>
    match qt₀.tree.insert (Position.position item) id with
    | .error _ => .err qt₀
    | .ok (tree', splits) =>
      insertLoop (QuadTree.mk qt₀.nodes qt₀.handle_counter tree')
        splits (splits.length + 1)

end QuadTree

/-- The exact-membership filter of `QuadTree::search_radius`: resolve each
handle (`unwrap`, so a missing key yields `none`, the panic) and keep the
items whose squared distance to `pos` is at most `r * r`. -/
def searchFilter {T : Type} [Position T] (m : List (Nat × T)) (pos : ℚ × ℚ)
    (r : ℚ) : List Nat → Option (List T)
  | [] => some []
  | k :: ks =>
    match mapGet m k with
    | none => none
    | some it =>
      match searchFilter m pos r ks with
      | none => none
      | some rest =>
        if |(Position.position it).1 - pos.1| ^ 2 +
            |(Position.position it).2 - pos.2| ^ 2 ≤ r * r
        then some (it :: rest) else some rest

namespace QuadTree

/-- `QuadTree::search_radius`: the inner region-pruned handle query followed
by the exact squared-distance filter (`none` models the `unwrap` panic on a
handle with no map entry). -/
def search_radius {T : Type} [Position T] (qt : QuadTree T) (pos : ℚ × ℚ)
    (r : ℚ) : Option (List T) :=
  searchFilter qt.nodes pos r (qt.tree.search_radius pos r)

/-- `QuadTree::search_radius_ids`: the raw region-pruned handles. -/
def search_radius_ids {T : Type} (qt : QuadTree T) (pos : ℚ × ℚ) (r : ℚ) :
    List Nat :=
  qt.tree.search_radius pos r

end QuadTree

/-- A brute-force linear scan over all stored items: the reference the
spec's radius-soundness property compares `search_radius` against. -/
def bruteSearch {T : Type} [Position T] (qt : QuadTree T) (pos : ℚ × ℚ)
    (r : ℚ) : List T :=
  (qt.nodes.map Prod.snd).filter fun it =>
    decide (|(Position.position it).1 - pos.1| ^ 2 +
      |(Position.position it).2 - pos.2| ^ 2 ≤ r * r)

/-- One public operation of the facade, for stating reachability over
operation sequences. -/
inductive Op (T : Type) where
  | insert (item : T) (pos : ℚ × ℚ)
  | remove (id : Nat) (pos : ℚ × ℚ)
  | reinsert (id : Nat) (pos : ℚ × ℚ)

/-- Execute one operation, keeping the resulting state (also after an
`InsertError`, whose state the caller retains in the source); `none` when
the operation panics (or hits the unreachable `fuelOut`). -/
def step {T : Type} [Position T] (qt : QuadTree T) : Op T → Option (QuadTree T)
  | .insert item pos => (qt.insert item pos).anyState
  | .remove id pos => some (qt.remove id pos).2
  | .reinsert id pos => (qt.reinsert id pos).anyState

/-- Execute a sequence of operations from a starting state. -/
def applyOps {T : Type} [Position T] (qt : QuadTree T) : List (Op T) →
    Option (QuadTree T)
  | [] => some qt
  | op :: ops =>
    match step qt op with
    | none => none
    | some q => applyOps q ops

/-- The test item type of the source's test module: a value that is nothing
but its position. -/
structure TestItem where
  pos : ℚ × ℚ
deriving DecidableEq

instance : Position TestItem := ⟨TestItem.pos⟩

/-! ### Concrete states used by the claim theorems

All are reachable by the public interface; `qt0`, `itemA`, `itemB` and the
radii follow the spec's concrete scenario (region (0,0)-(1,1),
`max_nodes = 1`, `min_size = 0.01`, A at (0.1,0.1), B at (0.2,0.2)). -/

/-- Item A of the spec's concrete scenario. -/
def itemA : TestItem := ⟨(1/10, 1/10)⟩

/-- Item B of the spec's concrete scenario. -/
def itemB : TestItem := ⟨(2/10, 2/10)⟩

/-- An item in the top-right quadrant of the unit region. -/
def itemC : TestItem := ⟨(7/10, 3/10)⟩

/-- The spec scenario's empty index. -/
def qt0 : QuadTree TestItem := QuadTree.new 1 (1/100) (0, 0) (1, 1)

/-- The index after inserting A then B (the second insert splits the root). -/
def qtAB : QuadTree TestItem :=
  (applyOps qt0 [Op.insert itemA (1/10, 1/10), Op.insert itemB (2/10, 2/10)]).getD qt0

/-- The index after inserting only A. -/
def qtA1 : QuadTree TestItem :=
  (applyOps qt0 [Op.insert itemA (1/10, 1/10)]).getD qt0

/-- The index after inserting only C (at (0.7, 0.3)). -/
def qtC : QuadTree TestItem :=
  (applyOps qt0 [Op.insert itemC (7/10, 3/10)]).getD qt0

/-- The state carried by the failing second insert into `qtC`. -/
def qtCfail : QuadTree TestItem :=
  ((qtC.insert itemA (1/10, 1/10)).anyState).getD qtC

/-- An empty index with leaf capacity 3. -/
def qt7 : QuadTree TestItem := QuadTree.new 3 (1/100) (0, 0) (1, 1)

/-- The index after inserting A and then calling `reinsert` for its handle
with a stale (out-of-bounds) old position. -/
def qtDup : QuadTree TestItem :=
  (applyOps qt7 [Op.insert itemA (1/10, 1/10), Op.reinsert 0 (2, 2)]).getD qt7

/-- A fresh unit-region leaf (the root of the spec scenario). -/
def rootLeaf : QuadTreeInner := QuadTreeInner.new 1 (1/100) (0, 0) (1, 1)

/-- The internal node `split()` makes of `rootLeaf`. -/
def splitRoot : QuadTreeInner := rootLeaf.split.1

/-- The child stored at index 1 of `splitRoot`'s `quads` array (the source's
`top_right_quad`). -/
def sq1 : QuadTreeInner := (splitRoot.quadAt 1).getD rootLeaf

/-- An empty index (for the reinsert-panic witness). -/
def qtEmpty : QuadTree TestItem := QuadTree.new 1 (1/100) (0, 0) (1, 1)

/-! ### Claim theorems: concrete evaluations -/

/-- C1: split does NOT preserve membership.  In the spec's concrete scenario
(region (0,0)-(1,1), `max_nodes = 1`, `min_size = 0.01`; A at (0.1,0.1),
then B at (0.2,0.2), whose insertion splits the root), B's item is recorded
in the map, yet `search_radius((0,0), 0.5)` returns only A: the handle whose
insertion triggered the split is never placed in the tree by the worklist
reinsertion, so it is lost.  (`search_radius((0,0), 0.05)` correctly returns
neither.) -/
theorem c1_split_loses_triggering_handle :
    applyOps qt0 [Op.insert itemA (1/10, 1/10), Op.insert itemB (2/10, 2/10)] =
      some qtAB ∧
    mapGet qtAB.nodes 1 = some itemB ∧
    qtAB.search_radius (0, 0) (1/2) = some [itemA] ∧
    qtAB.search_radius (0, 0) (1/20) = some [] := by
  exact ⟨rfl, rfl, rfl, rfl⟩

/-- C2: `split()` does not subdivide into four well-formed covering
quadrants.  For the unit region, the child at index 1 (the source's
`top_right_quad`) is a zero-width degenerate region although the parent is
not degenerate, and the points (3/4, 1/4) and (1/4, 3/4) — inside the
parent region — lie in no child that the routing rule can reach: inserting
either returns an error. -/
theorem c2_split_quadrant_mismatch :
    splitRoot.quadAt 1 = some sq1 ∧
    sq1.top_left.1 = sq1.bot_right.1 ∧
    decide (rootLeaf.top_left.1 = rootLeaf.bot_right.1) = false ∧
    splitRoot.in_boundary (3/4, 1/4) = true ∧
    QuadTreeInner.insert splitRoot (3/4, 1/4) 9 = Except.error () ∧
    splitRoot.in_boundary (1/4, 3/4) = true ∧
    QuadTreeInner.insert splitRoot (1/4, 3/4) 9 = Except.error () := by
  exact ⟨rfl, rfl, rfl, rfl, rfl, rfl, rfl⟩

/-- C3: insert can fail for a position INSIDE the root region.  After the
root of the spec scenario has split once, inserting at (0.7, 0.3) — inside
the root region — returns `InsertError` (the point routes to the `quads`
slot holding the bottom-left region, whose boundary check fails). -/
theorem c3_insert_errs_inside_root :
    qtAB.tree.in_boundary (7/10, 3/10) = true ∧
    qtAB.insert itemC (7/10, 3/10) = InsertOut.err qtAB := by
  exact ⟨rfl, rfl⟩

/-- C4: `search_radius` is NOT equal to the brute-force linear scan.  In the
reachable state `qtAB` both stored items lie within squared distance
(1/2)² of (0,0) — the brute-force scan returns both — but `search_radius`
returns only A (B's handle was lost by the split). -/
theorem c4_search_differs_from_brute_force :
    qtAB.search_radius (0, 0) (1/2) = some [itemA] ∧
    bruteSearch qtAB (0, 0) (1/2) = [itemA, itemB] := by
  exact ⟨rfl, rfl⟩

/-- C5 counterexample: with A stored at handle 0, calling
`remove(0, (5,5))` — a position outside the root region, so the handle is
absent at the leaf reached via that position — still removes A from the map
and returns it, leaving the handle stale in the tree; a later
`search_radius` over that leaf then panics (models as `none`).  The claim
says such a remove returns nothing and leaves the map unchanged. -/
theorem c5_remove_ignores_tree_absence :
    qtA1.tree.in_boundary (5, 5) = false ∧
    (qtA1.remove 0 (5, 5)).1 = some itemA ∧
    mapGet (qtA1.remove 0 (5, 5)).2.nodes 0 = none ∧
    (qtA1.remove 0 (5, 5)).2.tree = qtA1.tree ∧
    (qtA1.remove 0 (5, 5)).2.search_radius (1/10, 1/10) 1 = none := by
  exact ⟨rfl, rfl, rfl, rfl, rfl⟩

/-- C6: a failed insert does NOT leave the index unchanged.  Starting from
`qtC` (one item C at (0.7, 0.3), counter 1), inserting A at (0.1, 0.1)
returns `InsertError` — the worklist reinsertion of C's orphaned handle
fails after the split — yet the returned state has counter 2, holds A in
the map, and its tree has been split. -/
theorem c6_failed_insert_mutates_index :
    (qtC.insert itemA (1/10, 1/10)).isErr = true ∧
    (qtC.insert itemA (1/10, 1/10)).anyState = some qtCfail ∧
    qtC.handle_counter = 1 ∧
    qtCfail.handle_counter = 2 ∧
    mapGet qtCfail.nodes 1 = some itemA ∧
    decide (qtCfail.tree = qtC.tree) = false := by
  exact ⟨rfl, rfl, rfl, rfl, rfl, rfl⟩

/-- C7 counterexample: the strict sorted-leaf invariant fails.  Inserting A
and then calling `reinsert` for its handle with a stale out-of-bounds old
position reaches a state whose root leaf holds the handle sequence
`[0, 0]`, which is not strictly ascending. -/
theorem c7_duplicate_handle_in_leaf :
    applyOps qt7 [Op.insert itemA (1/10, 1/10), Op.reinsert 0 (2, 2)] =
      some qtDup ∧
    qtDup.tree.nodes = [0, 0] ∧
    decide (List.Sorted (fun a b : Nat => a < b) qtDup.tree.nodes) = false := by
  exact ⟨rfl, rfl, rfl⟩

/-- C10: `reinsert` with a handle that has no map entry panics: the removal
from the tree is attempted first (and soft-fails), then the map lookup is
`unwrap`ped, which panics for every unknown handle. -/
theorem c10_reinsert_unknown_handle_panics :
    ∀ (T : Type) [Position T] (qt : QuadTree T) (id : Nat)
      (old_pos : ℚ × ℚ),
      mapGet qt.nodes id = none → qt.reinsert id old_pos = InsertOut.panic := by
  intro T _ qt id old_pos h
  simp [QuadTree.reinsert, h]

/-- C10 witness: the empty index has no entry for handle 5, and `reinsert`
of handle 5 panics. -/
theorem c10_witness :
    mapGet qtEmpty.nodes 5 = none ∧
    qtEmpty.reinsert 5 (0, 0) = InsertOut.panic :=
  ⟨rfl, c10_reinsert_unknown_handle_panics TestItem qtEmpty 5 (0, 0) rfl⟩

/-! ### Association-list map lemmas -/

/-- The keys of the association-list map. -/
def keysOf {T : Type} (m : List (Nat × T)) : List Nat := m.map Prod.fst

/-- The value `mapRemove` returns is exactly the current `mapGet` value. -/
theorem mapRemove_fst {T : Type} (m : List (Nat × T)) (k : Nat) :
    (mapRemove m k).1 = mapGet m k := by
  induction m with
  | nil => rfl
  | cons p rest ih =>
    obtain ⟨k', v⟩ := p
    simp only [mapRemove, mapGet]
    by_cases h : k' = k
    · simp [h]
    · simp [h, ih]

/-- A key outside `keysOf` has no `mapGet` value. -/
theorem mapGet_eq_none_of_not_mem {T : Type} (m : List (Nat × T)) (k : Nat)
    (h : k ∉ keysOf m) : mapGet m k = none := by
  induction m with
  | nil => rfl
  | cons p rest ih =>
    obtain ⟨k', v⟩ := p
    simp only [keysOf, List.map_cons, List.mem_cons] at h
    push_neg at h
    simp only [mapGet]
    rw [if_neg (by exact fun hkk => h.1 hkk.symm)]
    exact ih (by simpa [keysOf] using h.2)

/-- With duplicate-free keys, the removed key has no value afterwards. -/
theorem mapGet_mapRemove_self {T : Type} (m : List (Nat × T)) (k : Nat)
    (hnd : (keysOf m).Nodup) : mapGet (mapRemove m k).2 k = none := by
  induction m with
  | nil => rfl
  | cons p rest ih =>
    obtain ⟨k', v⟩ := p
    simp only [keysOf, List.map_cons, List.nodup_cons] at hnd
    simp only [mapRemove]
    by_cases h : k' = k
    · subst h
      simp only [if_pos rfl]
      exact mapGet_eq_none_of_not_mem rest k' hnd.1
    · simp only [if_neg h, mapGet]
      exact ih hnd.2

/-- C5 (amended): `remove(handle, pos)` removes the handle from the leaf
reachable via `pos` only when it is present there, but its returned value
does not depend on the tree at all: it always removes and returns the map
entry of the handle (if any) — even when the handle is absent at the leaf
reached via `pos`, the item is removed from the map and returned (leaving a
stale handle in the tree), and the counter is unchanged. -/
theorem c5_amended_remove_always_takes_map_entry :
    ∀ (T : Type) (qt : QuadTree T) (id : Nat) (pos : ℚ × ℚ),
      (keysOf qt.nodes).Nodup →
      (qt.remove id pos).1 = mapGet qt.nodes id ∧
      mapGet (qt.remove id pos).2.nodes id = none ∧
      (qt.remove id pos).2.handle_counter = qt.handle_counter := by
  intro T qt id pos hnd
  refine ⟨?_, ?_, rfl⟩
  · exact mapRemove_fst qt.nodes id
  · exact mapGet_mapRemove_self qt.nodes id hnd

/-- C5 witness: the amended statement evaluated on `qtA1` (one item, handle
0) at the out-of-bounds position (5,5). -/
theorem c5_witness :
    (keysOf qtA1.nodes).Nodup ∧
    ((qtA1.remove 0 (5, 5)).1 = mapGet qtA1.nodes 0 ∧
     mapGet (qtA1.remove 0 (5, 5)).2.nodes 0 = none ∧
     (qtA1.remove 0 (5, 5)).2.handle_counter = qtA1.handle_counter) :=
  ⟨by decide, c5_amended_remove_always_takes_map_entry TestItem qtA1 0 (5, 5) (by decide)⟩

/-! ### The sorted-leaf invariant -/

/-- Every leaf's handle list is sorted ascending (non-strictly), and every
internal node holds no handles of its own. -/
def sortedLeafInv : QuadTreeInner → Prop
  | .leaf ns _ _ _ _ => List.Sorted (fun a b : Nat => a ≤ b) ns
  | .internal ns _ _ _ _ a b c d =>
    ns = [] ∧ sortedLeafInv a ∧ sortedLeafInv b ∧ sortedLeafInv c ∧ sortedLeafInv d

/-- `insertSorted` is `List.orderedInsert` for `≤`. -/
theorem insertSorted_eq_orderedInsert (l : List Nat) (h : Nat) :
    insertSorted l h = List.orderedInsert (fun a b : Nat => a ≤ b) h l := by
  induction l with
  | nil => rfl
  | cons x xs ih =>
    simp only [insertSorted, List.orderedInsert]
    by_cases hx : x < h
    · rw [if_pos hx, if_neg (by omega), ih]
    · rw [if_neg hx, if_pos (by omega)]

/-- `insertSorted` preserves sortedness. -/
theorem sorted_insertSorted {l : List Nat} (a : Nat)
    (h : List.Sorted (fun a b : Nat => a ≤ b) l) :
    List.Sorted (fun a b : Nat => a ≤ b) (insertSorted l a) := by
  rw [insertSorted_eq_orderedInsert]
  exact List.Sorted.orderedInsert a l h

/-- Erasing an element preserves sortedness. -/
theorem sorted_erase {l : List Nat} (a : Nat)
    (h : List.Sorted (fun a b : Nat => a ≤ b) l) :
    List.Sorted (fun a b : Nat => a ≤ b) (l.erase a) :=
  List.Pairwise.sublist (List.erase_sublist a l) h

/-- The inner insert preserves the sorted-leaf invariant. -/
theorem sortedLeafInv_insert (t : QuadTreeInner) :
    ∀ (pos : ℚ × ℚ) (handle : Nat) (t' : QuadTreeInner) (l : List Nat),
      sortedLeafInv t → t.insert pos handle = Except.ok (t', l) →
      sortedLeafInv t' := by
  induction t with
  | leaf ns mx ms tl br =>
    intro pos handle t' l hw h
    simp only [QuadTreeInner.insert] at h
    split at h
    · exact Except.noConfusion h
    · split at h
      · simp only [Except.ok.injEq, Prod.mk.injEq] at h
        obtain ⟨h1, h2⟩ := h
        subst h1
        simp only [sortedLeafInv] at hw ⊢
        exact sorted_insertSorted handle hw
      · simp only [QuadTreeInner.split, QuadTreeInner.new, QuadTreeInner.top_left,
          QuadTreeInner.bot_right, QuadTreeInner.max_nodes, QuadTreeInner.min_size,
          QuadTreeInner.nodes, Except.ok.injEq, Prod.mk.injEq] at h
        obtain ⟨h1, h2⟩ := h
        subst h1
        simp [sortedLeafInv]
  | internal ns mx ms tl br a b c d iha ihb ihc ihd =>
    intro pos handle t' l hw h
    simp only [QuadTreeInner.insert] at h
    split at h
    · exact Except.noConfusion h
    · simp only [sortedLeafInv] at hw
      obtain ⟨hns, h0, h1, h2, h3⟩ := hw
      split at h
      · split at h
        · split at h
          · exact Except.noConfusion h
          · rename_i heq
            simp only [Except.ok.injEq, Prod.mk.injEq] at h
            obtain ⟨ht, hl⟩ := h
            subst ht
            exact ⟨hns, iha _ _ _ _ h0 heq, h1, h2, h3⟩
        · split at h
          · exact Except.noConfusion h
          · rename_i heq
            simp only [Except.ok.injEq, Prod.mk.injEq] at h
            obtain ⟨ht, hl⟩ := h
            subst ht
            exact ⟨hns, h0, ihb _ _ _ _ h1 heq, h2, h3⟩
      · split at h
        · split at h
          · exact Except.noConfusion h
          · rename_i heq
            simp only [Except.ok.injEq, Prod.mk.injEq] at h
            obtain ⟨ht, hl⟩ := h
            subst ht
            exact ⟨hns, h0, h1, ihc _ _ _ _ h2 heq, h3⟩
        · split at h
          · exact Except.noConfusion h
          · rename_i heq
            simp only [Except.ok.injEq, Prod.mk.injEq] at h
            obtain ⟨ht, hl⟩ := h
            subst ht
            exact ⟨hns, h0, h1, h2, ihd _ _ _ _ h3 heq⟩

/-- The inner remove preserves the sorted-leaf invariant. -/
theorem sortedLeafInv_remove (t : QuadTreeInner) :
    ∀ (handle : Nat) (pos : ℚ × ℚ), sortedLeafInv t →
      sortedLeafInv (t.remove handle pos).2 := by
  induction t with
  | leaf ns mx ms tl br =>
    intro handle pos hw
    simp only [QuadTreeInner.remove]
    split
    · exact hw
    · split
      · simp only [sortedLeafInv] at hw ⊢
        exact sorted_erase handle hw
      · exact hw
  | internal ns mx ms tl br a b c d iha ihb ihc ihd =>
    intro handle pos hw
    simp only [sortedLeafInv] at hw
    obtain ⟨hns, h0, h1, h2, h3⟩ := hw
    simp only [QuadTreeInner.remove]
    split
    · exact ⟨hns, h0, h1, h2, h3⟩
    · split
      · split
        · exact ⟨hns, iha _ _ h0, h1, h2, h3⟩
        · exact ⟨hns, h0, ihb _ _ h1, h2, h3⟩
      · split
        · exact ⟨hns, h0, h1, ihc _ _ h2, h3⟩
        · exact ⟨hns, h0, h1, h2, ihd _ _ h3⟩

/-- The worklist loop preserves the sorted-leaf invariant. -/
theorem sortedLeafInv_insertLoop {T : Type} [Position T] :
    ∀ (fuel : Nat) (splits : List Nat) (qt q : QuadTree T),
      sortedLeafInv qt.tree → (insertLoop qt splits fuel).anyState = some q →
      sortedLeafInv q.tree := by
  intro fuel
  induction fuel with
  | zero =>
    intro splits qt q hw h
    exact absurd h (by simp [insertLoop, InsertOut.anyState])
  | succ f ih =>
    intro splits qt q hw h
    simp only [insertLoop] at h
    split at h
    · simp only [InsertOut.anyState, Option.some.injEq] at h
      subst h
      exact hw
    · split at h
      · simp [InsertOut.anyState] at h
      · split at h
        · simp only [InsertOut.anyState, Option.some.injEq] at h
          subst h
          exact hw
        · rename_i heq
          exact ih _ _ _ (sortedLeafInv_insert _ _ _ _ _ hw heq) h

/-- The facade insert preserves the sorted-leaf invariant (also on the state
carried by an `InsertError` outcome). -/
theorem sortedLeafInv_facade_insert {T : Type} [Position T]
    (qt : QuadTree T) (item : T) (pos : ℚ × ℚ) (q : QuadTree T)
    (hw : sortedLeafInv qt.tree) (h : (qt.insert item pos).anyState = some q) :
    sortedLeafInv q.tree := by
  simp only [QuadTree.insert] at h
  split at h
  · simp only [InsertOut.anyState, Option.some.injEq] at h
    subst h
    exact hw
  · rename_i heq
    exact sortedLeafInv_insertLoop _ _ _ _
      (sortedLeafInv_insert _ _ _ _ _ hw heq) h

/-- The facade remove preserves the sorted-leaf invariant. -/
theorem sortedLeafInv_facade_remove {T : Type} (qt : QuadTree T) (id : Nat)
    (pos : ℚ × ℚ) (hw : sortedLeafInv qt.tree) :
    sortedLeafInv (qt.remove id pos).2.tree := by
  simp only [QuadTree.remove]
  exact sortedLeafInv_remove _ _ _ hw

/-- The facade reinsert preserves the sorted-leaf invariant (also on the
state carried by an `InsertError` outcome). -/
theorem sortedLeafInv_facade_reinsert {T : Type} [Position T]
    (qt : QuadTree T) (id : Nat) (old_pos : ℚ × ℚ) (q : QuadTree T)
    (hw : sortedLeafInv qt.tree)
    (h : (qt.reinsert id old_pos).anyState = some q) :
    sortedLeafInv q.tree := by
  simp only [QuadTree.reinsert] at h
  split at h
  · simp [InsertOut.anyState] at h
  · rename_i item heq
    have hw₀ : sortedLeafInv (qt.tree.remove id old_pos).2 :=
      sortedLeafInv_remove _ _ _ hw
    split at h
    · simp only [InsertOut.anyState, Option.some.injEq] at h
      subst h
      exact hw₀
    · rename_i heq'
      exact sortedLeafInv_insertLoop _ _ _ _
        (sortedLeafInv_insert _ _ _ _ _ hw₀ heq') h

/-- A `step` preserves the sorted-leaf invariant. -/
theorem sortedLeafInv_step {T : Type} [Position T] (qt : QuadTree T)
    (op : Op T) (q : QuadTree T) (hw : sortedLeafInv qt.tree)
    (h : step qt op = some q) : sortedLeafInv q.tree := by
  cases op with
  | insert item pos => exact sortedLeafInv_facade_insert qt item pos q hw h
  | remove id pos =>
    simp only [step, Option.some.injEq] at h
    subst h
    exact sortedLeafInv_facade_remove qt id pos hw
  | reinsert id pos => exact sortedLeafInv_facade_reinsert qt id pos q hw h

/-- Any operation sequence preserves the sorted-leaf invariant. -/
theorem sortedLeafInv_applyOps {T : Type} [Position T] :
    ∀ (ops : List (Op T)) (qt q : QuadTree T),
      sortedLeafInv qt.tree → applyOps qt ops = some q →
      sortedLeafInv q.tree := by
  intro ops
  induction ops with
  | nil =>
    intro qt q hw h
    simp only [applyOps, Option.some.injEq] at h
    subst h
    exact hw
  | cons op rest ih =>
    intro qt q hw h
    simp only [applyOps] at h
    split at h
    · exact absurd h (by simp)
    · rename_i q1 hstep
      exact ih _ _ (sortedLeafInv_step qt op q1 hw hstep) h

/-- C7 (amended): after any sequence of insert, remove and reinsert
operations starting from an empty index, every leaf's handle sequence is
sorted ascending — non-strictly: `reinsert` called with a stale old
position can insert a handle a second time, producing adjacent duplicates —
and every internal node holds no handles directly. -/
theorem c7_amended_leaves_sorted_nonstrict :
    ∀ (T : Type) [Position T] (mx : Nat) (ms : ℚ) (tl br : ℚ × ℚ)
      (ops : List (Op T)) (q : QuadTree T),
      applyOps (QuadTree.new mx ms tl br) ops = some q →
      sortedLeafInv q.tree := by
  intro T _ mx ms tl br ops q h
  refine sortedLeafInv_applyOps ops _ q ?_ h
  simp [QuadTree.new, QuadTreeInner.new, sortedLeafInv]

/-- C7 witness: the amended invariant evaluated on the reachable
duplicate-handle state `qtDup` (capacity 3, insert A, stale reinsert). -/
theorem c7_witness : sortedLeafInv qtDup.tree :=
  c7_amended_leaves_sorted_nonstrict TestItem 3 (1/100) (0, 0) (1, 1)
    [Op.insert itemA (1/10, 1/10), Op.reinsert 0 (2, 2)] qtDup (by decide)

/-! ### Handle-allocation lemmas -/

/-- `mapInsert` stores the value under the key. -/
theorem mapGet_mapInsert_self {T : Type} (m : List (Nat × T)) (k : Nat)
    (v : T) : mapGet (mapInsert m k v) k = some v := by
  induction m with
  | nil => simp [mapInsert, mapGet]
  | cons p rest ih =>
    obtain ⟨k', v'⟩ := p
    simp only [mapInsert]
    by_cases h : k' = k
    · simp [h, mapGet]
    · simp [h, mapGet, ih]

/-- The keys after `mapInsert`: unchanged when the key was present, the key
appended otherwise. -/
theorem keysOf_mapInsert {T : Type} (m : List (Nat × T)) (k : Nat) (v : T) :
    keysOf (mapInsert m k v) =
      if k ∈ keysOf m then keysOf m else keysOf m ++ [k] := by
  induction m with
  | nil => simp [mapInsert, keysOf]
  | cons p rest ih =>
    obtain ⟨k', v'⟩ := p
    simp only [mapInsert, keysOf, List.map_cons, List.mem_cons]
    by_cases h : k' = k
    · subst h
      simp [keysOf]
    · have hne : ¬(k = k') := fun hk => h hk.symm
      rw [if_neg h]
      simp only [keysOf, List.map_cons] at ih ⊢
      rw [ih]
      by_cases hmem : k ∈ List.map Prod.fst rest
      · rw [if_pos hmem, if_pos (by exact Or.inr hmem)]
      · rw [if_neg hmem, if_neg (by rintro (hk | hk); exact hne hk; exact hmem hk)]
        simp

/-- The keys after `mapRemove` form a sublist of the keys before. -/
theorem keysOf_mapRemove_sublist {T : Type} (m : List (Nat × T)) (k : Nat) :
    List.Sublist (keysOf (mapRemove m k).2) (keysOf m) := by
  induction m with
  | nil => simp [mapRemove, keysOf]
  | cons p rest ih =>
    obtain ⟨k', v⟩ := p
    simp only [mapRemove]
    by_cases h : k' = k
    · simp only [if_pos h, keysOf, List.map_cons]
      exact List.Sublist.cons _ (List.Sublist.refl _)
    · simp only [if_neg h, keysOf, List.map_cons]
      exact List.Sublist.cons₂ _ ih

/-- The worklist loop never touches the map or the counter. -/
theorem insertLoop_state {T : Type} [Position T] :
    ∀ (fuel : Nat) (splits : List Nat) (qt q : QuadTree T),
      (insertLoop qt splits fuel).anyState = some q →
      q.nodes = qt.nodes ∧ q.handle_counter = qt.handle_counter := by
  intro fuel
  induction fuel with
  | zero =>
    intro splits qt q h
    exact absurd h (by simp [insertLoop, InsertOut.anyState])
  | succ f ih =>
    intro splits qt q h
    simp only [insertLoop] at h
    split at h
    · simp only [InsertOut.anyState, Option.some.injEq] at h
      subst h
      exact ⟨rfl, rfl⟩
    · split at h
      · simp [InsertOut.anyState] at h
      · split at h
        · simp only [InsertOut.anyState, Option.some.injEq] at h
          subst h
          exact ⟨rfl, rfl⟩
        · have hh := ih _ _ _ h
          exact hh

/-- A successful facade insert allocates exactly the old counter value and
bumps the counter by one. -/
theorem insert_ok_state {T : Type} [Position T] (qt : QuadTree T) (item : T)
    (pos : ℚ × ℚ) (q : QuadTree T) (h : qt.insert item pos = InsertOut.ok q) :
    q.handle_counter = qt.handle_counter + 1 ∧
    q.nodes = mapInsert qt.nodes qt.handle_counter item := by
  simp only [QuadTree.insert] at h
  split at h
  · exact absurd h (by simp)
  · have h2 := congrArg InsertOut.anyState h
    obtain ⟨hn, hc⟩ := insertLoop_state _ _ _ _ h2
    exact ⟨hc, hn⟩

/-- Any state carried out of a facade insert either is the unchanged input
(initial boundary error) or has the item recorded under the old counter and
the counter bumped by one. -/
theorem insert_anyState {T : Type} [Position T] (qt : QuadTree T) (item : T)
    (pos : ℚ × ℚ) (q : QuadTree T)
    (h : (qt.insert item pos).anyState = some q) :
    q = qt ∨
    (q.nodes = mapInsert qt.nodes qt.handle_counter item ∧
      q.handle_counter = qt.handle_counter + 1) := by
  simp only [QuadTree.insert] at h
  split at h
  · simp only [InsertOut.anyState, Option.some.injEq] at h
    exact Or.inl h.symm
  · obtain ⟨hn, hc⟩ := insertLoop_state _ _ _ _ h
    exact Or.inr ⟨hn, hc⟩

/-- Any state carried out of a facade reinsert has the same map and counter
as the input. -/
theorem reinsert_anyState {T : Type} [Position T] (qt : QuadTree T)
    (id : Nat) (old_pos : ℚ × ℚ) (q : QuadTree T)
    (h : (qt.reinsert id old_pos).anyState = some q) :
    q.nodes = qt.nodes ∧ q.handle_counter = qt.handle_counter := by
  simp only [QuadTree.reinsert] at h
  split at h
  · simp [InsertOut.anyState] at h
  · split at h
    · simp only [InsertOut.anyState, Option.some.injEq] at h
      subst h
      exact ⟨rfl, rfl⟩
    · have hh := insertLoop_state _ _ _ _ h
      exact hh

/-- The handle counter never decreases across a step. -/
theorem step_counter_mono {T : Type} [Position T] (qt : QuadTree T)
    (op : Op T) (q : QuadTree T) (h : step qt op = some q) :
    qt.handle_counter ≤ q.handle_counter := by
  cases op with
  | insert item pos =>
    rcases insert_anyState qt item pos q h with h1 | ⟨_, h2⟩
    · exact h1 ▸ Nat.le_refl _
    · omega
  | remove id pos =>
    simp only [step, Option.some.injEq] at h
    subst h
    exact Nat.le_refl _
  | reinsert id pos =>
    obtain ⟨_, h2⟩ := reinsert_anyState qt id pos q h
    exact h2 ▸ Nat.le_refl _

/-- The handle invariant: every live key is below the counter, and the keys
are duplicate-free. -/
def handleInv {T : Type} (qt : QuadTree T) : Prop :=
  (∀ k ∈ keysOf qt.nodes, k < qt.handle_counter) ∧ (keysOf qt.nodes).Nodup

/-- A step preserves the handle invariant. -/
theorem handleInv_step {T : Type} [Position T] (qt : QuadTree T) (op : Op T)
    (q : QuadTree T) (hw : handleInv qt) (h : step qt op = some q) :
    handleInv q := by
  obtain ⟨hb, hnd⟩ := hw
  cases op with
  | insert item pos =>
    rcases insert_anyState qt item pos q h with h1 | ⟨hn, hc⟩
    · subst h1; exact ⟨hb, hnd⟩
    · constructor
      · intro k hk
        rw [hn, keysOf_mapInsert] at hk
        rw [hc]
        split at hk
        · exact Nat.lt_succ_of_lt (hb k hk)
        · rcases List.mem_append.mp hk with hk | hk
          · exact Nat.lt_succ_of_lt (hb k hk)
          · simp only [List.mem_singleton] at hk
            omega
      · rw [hn, keysOf_mapInsert]
        split
        · exact hnd
        · rename_i hmem
          refine List.Nodup.append hnd (List.nodup_singleton _) ?_
          intro a ha ha'
          rw [List.mem_singleton] at ha'
          exact hmem (ha' ▸ ha)
  | remove id pos =>
    simp only [step, Option.some.injEq] at h
    subst h
    have hsub : List.Sublist (keysOf (qt.remove id pos).2.nodes)
        (keysOf qt.nodes) := by
      simp only [QuadTree.remove]
      exact keysOf_mapRemove_sublist qt.nodes id
    constructor
    · intro k hk
      exact hb k (hsub.subset hk)
    · exact List.Nodup.sublist hsub hnd
  | reinsert id pos =>
    obtain ⟨hn, hc⟩ := reinsert_anyState qt id pos q h
    rw [handleInv, hn, hc]
    exact ⟨hb, hnd⟩

/-- Any operation sequence preserves the handle invariant. -/
theorem handleInv_applyOps {T : Type} [Position T] :
    ∀ (ops : List (Op T)) (qt q : QuadTree T),
      handleInv qt → applyOps qt ops = some q → handleInv q := by
  intro ops
  induction ops with
  | nil =>
    intro qt q hw h
    simp only [applyOps, Option.some.injEq] at h
    subst h
    exact hw
  | cons op rest ih =>
    intro qt q hw h
    simp only [applyOps] at h
    split at h
    · exact absurd h (by simp)
    · rename_i q1 hstep
      exact ih _ _ (handleInv_step qt op q1 hw hstep) h

/-- C9: handle allocation is monotonic and unique.  (1) A successful insert
assigns the current counter value as the new item's handle and increments
the counter by exactly one; (2) no step ever decreases the counter — so
handles are assigned in strictly increasing order across the life of one
index, and a handle once removed (which, by (3), is below the counter) is
never assigned again; (3) in every reachable state all live keys are below
the counter and no two live items share a handle. -/
theorem c9_handle_allocation :
    (∀ (T : Type) [Position T] (qt : QuadTree T) (item : T) (pos : ℚ × ℚ)
        (q : QuadTree T), qt.insert item pos = InsertOut.ok q →
        q.handle_counter = qt.handle_counter + 1 ∧
        mapGet q.nodes qt.handle_counter = some item) ∧
    (∀ (T : Type) [Position T] (qt : QuadTree T) (op : Op T)
        (q : QuadTree T), step qt op = some q →
        qt.handle_counter ≤ q.handle_counter) ∧
    (∀ (T : Type) [Position T] (mx : Nat) (ms : ℚ) (tl br : ℚ × ℚ)
        (ops : List (Op T)) (q : QuadTree T),
        applyOps (QuadTree.new mx ms tl br) ops = some q →
        (∀ k ∈ keysOf q.nodes, k < q.handle_counter) ∧
        (keysOf q.nodes).Nodup) := by
  refine ⟨?_, ?_, ?_⟩
  · intro T _ qt item pos q h
    obtain ⟨hc, hn⟩ := insert_ok_state qt item pos q h
    exact ⟨hc, by rw [hn]; exact mapGet_mapInsert_self _ _ _⟩
  · intro T _ qt op q h
    exact step_counter_mono qt op q h
  · intro T _ mx ms tl br ops q h
    exact handleInv_applyOps ops _ q ⟨by simp [QuadTree.new, keysOf], by simp [QuadTree.new, keysOf]⟩ h

/-! ### Termination of the worklist loop -/

/-- Inserting into an internal node keeps it internal and returns no pending
splits (the source's internal branch returns `Ok(vec![])`, discarding the
child's list). -/
theorem insert_internal_ok (t : QuadTreeInner) (pos : ℚ × ℚ) (handle : Nat)
    (t' : QuadTreeInner) (l : List Nat) (hi : t.isInternal = true)
    (h : t.insert pos handle = Except.ok (t', l)) :
    t'.isInternal = true ∧ l = [] := by
  cases t with
  | leaf ns mx ms tl br => simp [QuadTreeInner.isInternal] at hi
  | internal ns mx ms tl br a b c d =>
    simp only [QuadTreeInner.insert] at h
    split at h
    · exact Except.noConfusion h
    · split at h
      · split at h
        · split at h
          · exact Except.noConfusion h
          · simp only [Except.ok.injEq, Prod.mk.injEq] at h
            obtain ⟨ht, hl⟩ := h
            exact ⟨ht ▸ rfl, hl.symm⟩
        · split at h
          · exact Except.noConfusion h
          · simp only [Except.ok.injEq, Prod.mk.injEq] at h
            obtain ⟨ht, hl⟩ := h
            exact ⟨ht ▸ rfl, hl.symm⟩
      · split at h
        · split at h
          · exact Except.noConfusion h
          · simp only [Except.ok.injEq, Prod.mk.injEq] at h
            obtain ⟨ht, hl⟩ := h
            exact ⟨ht ▸ rfl, hl.symm⟩
        · split at h
          · exact Except.noConfusion h
          · simp only [Except.ok.injEq, Prod.mk.injEq] at h
            obtain ⟨ht, hl⟩ := h
            exact ⟨ht ▸ rfl, hl.symm⟩

/-- An insert that returns a nonempty pending-split list has split the node
itself: the resulting node is internal. -/
theorem insert_splits_internal (t : QuadTreeInner) (pos : ℚ × ℚ)
    (handle : Nat) (t' : QuadTreeInner) (l : List Nat)
    (h : t.insert pos handle = Except.ok (t', l)) (hl : l ≠ []) :
    t'.isInternal = true := by
  cases t with
  | leaf ns mx ms tl br =>
    simp only [QuadTreeInner.insert] at h
    split at h
    · exact Except.noConfusion h
    · split at h
      · simp only [Except.ok.injEq, Prod.mk.injEq] at h
        exact absurd h.2.symm hl
      · simp only [QuadTreeInner.split, QuadTreeInner.new, QuadTreeInner.top_left,
          QuadTreeInner.bot_right, QuadTreeInner.max_nodes, QuadTreeInner.min_size,
          QuadTreeInner.nodes, Except.ok.injEq, Prod.mk.injEq] at h
        obtain ⟨ht, _⟩ := h
        exact ht ▸ rfl
  | internal ns mx ms tl br a b c d =>
    obtain ⟨_, hl2⟩ :=
      insert_internal_ok (QuadTreeInner.internal ns mx ms tl br a b c d)
        pos handle t' l rfl h
    exact absurd hl2 hl

/-- With an internal root, every loop iteration consumes one pending handle
and produces none, so fuel exceeding the worklist length never runs out. -/
theorem insertLoop_internal_no_fuelOut {T : Type} [Position T] :
    ∀ (fuel : Nat) (splits : List Nat) (qt : QuadTree T),
      qt.tree.isInternal = true → splits.length < fuel →
      (insertLoop qt splits fuel).isFuelOut = false := by
  intro fuel
  induction fuel with
  | zero =>
    intro splits qt hq hl
    omega
  | succ f ih =>
    intro splits qt hq hl
    simp only [insertLoop]
    split
    · rfl
    · rename_i id hg
      split
      · rfl
      · split
        · rfl
        · rename_i item hm pr tree' new heq
          obtain ⟨hint, hnew⟩ := insert_internal_ok _ _ _ _ _ hq heq
          subst hnew
          have hne : splits ≠ [] := by
            intro hempty
            rw [hempty] at hg
            simp at hg
          refine ih _ _ hint ?_
          have hdl := List.length_dropLast splits
          have : splits.length ≠ 0 := fun h0 => hne (List.eq_nil_of_length_eq_zero h0)
          simp only [List.append_nil, hdl]
          omega

/-- The worklist loop terminates from every configuration: some fuel
suffices. -/
theorem insertLoop_terminates {T : Type} [Position T] :
    ∀ (n : Nat) (qt : QuadTree T) (splits : List Nat), splits.length ≤ n →
      ∃ fuel, (insertLoop qt splits fuel).isFuelOut = false := by
  intro n
  induction n with
  | zero =>
    intro qt splits hl
    have : splits = [] := List.eq_nil_of_length_eq_zero (Nat.le_zero.mp hl)
    subst this
    exact ⟨1, by simp [insertLoop, InsertOut.isFuelOut]⟩
  | succ n ih =>
    intro qt splits hl
    cases hg : splits.getLast? with
    | none => exact ⟨1, by simp [insertLoop, hg, InsertOut.isFuelOut]⟩
    | some id =>
      have hne : splits ≠ [] := by
        intro hempty
        rw [hempty] at hg
        simp at hg
      have hlen : splits.dropLast.length ≤ n := by
        have hdl := List.length_dropLast splits
        have : splits.length ≠ 0 := fun h0 => hne (List.eq_nil_of_length_eq_zero h0)
        omega
      cases hm : mapGet qt.nodes id with
      | none => exact ⟨1, by simp [insertLoop, hg, hm, InsertOut.isFuelOut]⟩
      | some item =>
        cases hI : qt.tree.insert (Position.position item) id with
        | error e => exact ⟨1, by simp [insertLoop, hg, hm, hI, InsertOut.isFuelOut]⟩
        | ok pr =>
          obtain ⟨tree', new⟩ := pr
          by_cases hnew : new = []
          · subst hnew
            obtain ⟨f, hf⟩ := ih (QuadTree.mk qt.nodes qt.handle_counter tree')
              (splits.dropLast ++ []) (by simpa using hlen)
            refine ⟨f + 1, ?_⟩
            simp only [insertLoop, hg, hm, hI]
            exact hf
          · have hint : tree'.isInternal = true :=
              insert_splits_internal _ _ _ _ _ hI hnew
            refine ⟨(splits.dropLast ++ new).length + 1 + 1, ?_⟩
            simp only [insertLoop, hg, hm, hI]
            exact insertLoop_internal_no_fuelOut _ _ _ hint (Nat.lt_succ_self _)

/-- C8: insertion terminates for every input.  (1) The worklist loop always
reaches the state with no pending handle: from every configuration some
fuel makes it finish without running out; (2) the facade `insert` — whose
fuel is one more than its initial pending list — never runs out of fuel,
for every state, item and position (in particular when many items sit at
one identical coordinate); (3) likewise for `reinsert`.  The recursive
descent is structural on the finite tree, so it reaches a leaf by
construction. -/
theorem c8_insertion_terminates :
    (∀ (T : Type) [Position T] (qt : QuadTree T) (splits : List Nat),
        ∃ fuel, (insertLoop qt splits fuel).isFuelOut = false) ∧
    (∀ (T : Type) [Position T] (qt : QuadTree T) (item : T) (pos : ℚ × ℚ),
        (qt.insert item pos).isFuelOut = false) ∧
    (∀ (T : Type) [Position T] (qt : QuadTree T) (id : Nat)
        (old_pos : ℚ × ℚ),
        (qt.reinsert id old_pos).isFuelOut = false) := by
  refine ⟨?_, ?_, ?_⟩
  · intro T _ qt splits
    exact insertLoop_terminates splits.length qt splits (Nat.le_refl _)
  · intro T _ qt item pos
    simp only [QuadTree.insert]
    split
    · rfl
    · rename_i pr tree' splits heq
      by_cases hs : splits = []
      · subst hs
        simp [insertLoop, InsertOut.isFuelOut]
      · exact insertLoop_internal_no_fuelOut _ _ _
          (insert_splits_internal _ _ _ _ _ heq hs) (Nat.lt_succ_self _)
  · intro T _ qt id old_pos
    simp only [QuadTree.reinsert]
    split
    · rfl
    · split
      · rfl
      · rename_i item hm pr tree' splits heq
        by_cases hs : splits = []
        · subst hs
          simp [insertLoop, InsertOut.isFuelOut]
        · exact insertLoop_internal_no_fuelOut _ _ _
            (insert_splits_internal _ _ _ _ _ heq hs) (Nat.lt_succ_self _)
